import Mathlib

/-!
Verification of the deployment-risk core of the `ai-deployment-risk-predictor`
repository.  The repository ships the Next.js presentation layer and two design
documents; the scoring/persistence/aggregation backend is specified in the
design documents, so those parts are modelled from the specification text,
while every UI-side computation is embedded directly from the TypeScript
source.  Scores are natural numbers, money-free rationals (`ℚ`) stand in for
the JavaScript floats, and timestamps are natural numbers.
-/

/-- The three risk buckets (`RiskLevel` in `frontend/lib/api.ts`). -/
inductive RiskLevel : Type
  | LOW : RiskLevel
  | MEDIUM : RiskLevel
  | HIGH : RiskLevel
deriving DecidableEq, Repr

/-- Modelled from the spec: the backend `risk_level` mapping of §4.2
("score in [0,29] → LOW; [30,59] → MEDIUM; [60,100] → HIGH"); the scorer
implementing it is not part of the shipped sources. -/
def riskLevelOfScore (s : ℕ) : RiskLevel :=
  if s ≤ 29 then .LOW else if s ≤ 59 then .MEDIUM else .HIGH

/-- `RiskMeter` threshold coloring in the predictions page of the static
mock-up (`src/unnamed/part_004`):
`score >= 60 ? "#f85149" : score >= 30 ? "#d29922" : "#3fb950"`. -/
def riskMeterFillColor (score : ℕ) : String :=
  if score ≥ 60 then "#f85149" else if score ≥ 30 then "#d29922" else "#3fb950"

/-- The color each risk level is displayed with by the mock-up `RiskMeter`. -/
def meterColorOfLevel : RiskLevel → String
  | .LOW => "#3fb950"
  | .MEDIUM => "#d29922"
  | .HIGH => "#f85149"

/-- `RiskMeter` caption in `frontend/app/(dashboard)/predictions/page.tsx`:
`score < 30 ? "Low risk — safe to deploy" : score < 60 ? "Moderate risk —
review before deploying" : "High risk — requires thorough review"`. -/
def riskMeterCaption (score : ℕ) : String :=
  if score < 30 then "Low risk — safe to deploy"
  else if score < 60 then "Moderate risk — review before deploying"
  else "High risk — requires thorough review"

/-- The caption each risk level receives in the predictions-page meter. -/
def meterCaptionOfLevel : RiskLevel → String
  | .LOW => "Low risk — safe to deploy"
  | .MEDIUM => "Moderate risk — review before deploying"
  | .HIGH => "High risk — requires thorough review"

/-- Average-score sublabel of the `Avg Risk Score` stat card in
`frontend/app/(dashboard)/dashboard/page.tsx`: `avg < 30 ? "Overall: Low
risk" : avg < 60 ? "Overall: Moderate risk" : "Overall: High risk"`.
The average is a float in the source, modelled as `ℚ`. -/
def avgRiskLabel (avg : ℚ) : String :=
  if avg < 30 then "Overall: Low risk"
  else if avg < 60 then "Overall: Moderate risk"
  else "Overall: High risk"

/-- The dashboard label corresponding to each risk level. -/
def avgLabelOfLevel : RiskLevel → String
  | .LOW => "Overall: Low risk"
  | .MEDIUM => "Overall: Moderate risk"
  | .HIGH => "Overall: High risk"

/-- `RISK_COLORS` record of `frontend/app/(dashboard)/dashboard/page.tsx`. -/
def dashRiskColors : RiskLevel → String
  | .LOW => "#22c55e"
  | .MEDIUM => "#f59e0b"
  | .HIGH => "#ef4444"

/-- Bar fill of `ScoreHistogramChart` in
`frontend/app/(dashboard)/dashboard/page.tsx`, keyed on `parseInt(b.range)`,
i.e. on the bucket's lower bound: `parseInt(b.range) < 30 ? RISK_COLORS.LOW
: parseInt(b.range) < 60 ? RISK_COLORS.MEDIUM : RISK_COLORS.HIGH`. -/
def histogramBarFill (lowerBound : ℕ) : String :=
  if lowerBound < 30 then dashRiskColors .LOW
  else if lowerBound < 60 then dashRiskColors .MEDIUM
  else dashRiskColors .HIGH

/-- Modelled from the spec: §4.4 buckets scores into fixed-width ranges
(width 10, covering 0–100 inclusive, 10 buckets), so a score `s ≤ 100` falls
into the bucket whose lower bound is `10 * (s / 10)`, capped at 90 because
the last bucket absorbs the score 100. -/
def bucketLowerBound (s : ℕ) : ℕ :=
  min (10 * (s / 10)) 90

/-- C2: for every score in [0,100] the risk level follows the boundary table
(29 → LOW, 30 → MEDIUM, 59 → MEDIUM, 60 → HIGH), and each place the UI
re-derives a level from a score — the mock-up `RiskMeter` coloring, the
predictions-page meter caption, the dashboard average-score label, and the
histogram bucket coloring keyed on the bucket's lower bound — computes the
same mapping. -/
theorem c2_risk_level_boundary_table :
    (∀ s : ℕ, s ≤ 100 →
      ((riskLevelOfScore s = .LOW ↔ s ≤ 29) ∧
       (riskLevelOfScore s = .MEDIUM ↔ 30 ≤ s ∧ s ≤ 59) ∧
       (riskLevelOfScore s = .HIGH ↔ 60 ≤ s)) ∧
      riskMeterFillColor s = meterColorOfLevel (riskLevelOfScore s) ∧
      riskMeterCaption s = meterCaptionOfLevel (riskLevelOfScore s) ∧
      avgRiskLabel (s : ℚ) = avgLabelOfLevel (riskLevelOfScore s) ∧
      histogramBarFill (bucketLowerBound s) = dashRiskColors (riskLevelOfScore s)) ∧
    riskLevelOfScore 29 = .LOW ∧ riskLevelOfScore 30 = .MEDIUM ∧
    riskLevelOfScore 59 = .MEDIUM ∧ riskLevelOfScore 60 = .HIGH := by
  refine ⟨?_, by decide, by decide, by decide, by decide⟩
  intro s hs
  have hcast : ∀ b : ℕ, ((s : ℚ) < (b : ℚ) ↔ s < b) := by
    intro b; exact_mod_cast Iff.rfl
  constructor
  · unfold riskLevelOfScore
    split_ifs with h1 h2 <;>
      refine ⟨?_, ?_, ?_⟩ <;> simp_all <;> omega
  refine ⟨?_, ?_, ?_, ?_⟩
  · unfold riskMeterFillColor riskLevelOfScore meterColorOfLevel
    split_ifs <;> simp_all <;> omega
  · unfold riskMeterCaption riskLevelOfScore meterCaptionOfLevel
    split_ifs <;> simp_all <;> omega
  · unfold avgRiskLabel riskLevelOfScore avgLabelOfLevel
    have h30 := hcast 30
    have h60 := hcast 60
    split_ifs with h1 h2 h3 h4 h5 <;> simp_all <;> omega
  · unfold histogramBarFill bucketLowerBound riskLevelOfScore
    split_ifs <;> simp_all <;> omega

/-- Witness for C2: the theorem applied at the MEDIUM boundary score 59. -/
theorem c2_risk_level_boundary_table_witness :
    riskLevelOfScore 59 = .MEDIUM ∧
    riskMeterFillColor 59 = meterColorOfLevel (riskLevelOfScore 59) := by
  have h := c2_risk_level_boundary_table
  exact ⟨(h.1 59 (by decide)).1.2.1.mpr (by decide), (h.1 59 (by decide)).2.1⟩

/-- Parse result of an HTTP error body: a JSON object with an optional
`detail` field, as read by the client (`body as { detail?: string }`). -/
structure ErrBody : Type where
  detail : Option String
deriving DecidableEq, Repr

/-- An HTTP response as observed by `request<T>` in `frontend/lib/api.ts`:
the `ok` flag, the numeric status, and the raw body text. -/
structure HttpResult : Type where
  ok : Bool
  status : ℕ
  body : String
deriving DecidableEq, Repr

/-- Outcome of the client-side `request<T>` promise: it resolves with a
value, rejects with the `Error` thrown on a failing status, or rejects with
the JSON parse failure of `res.json()` on a success status. -/
inductive RequestOutcome (T : Type) : Type
  | resolved (v : T) : RequestOutcome T
  | throwsError (msg : String) : RequestOutcome T
  | jsonFailure : RequestOutcome T
deriving DecidableEq

/-- The `Error` message built by `request<T>` for a failing status:
`(body as { detail?: string }).detail ?? \x60API error $\x7bres.status\x7d\x60`,
where the body is parsed with `res.json().catch(() => (\x7b\x7d))` so a
malformed error body falls back to the status message. -/
def requestErrorMessage (parseErr : String → Option ErrBody) (res : HttpResult) : String :=
  match parseErr res.body with
  | some b => b.detail.getD ("API error " ++ toString res.status)
  | none => "API error " ++ toString res.status

/-- `request<T>` of `frontend/lib/api.ts`, with JSON parsing abstracted into
`parseData` (the success-path `res.json()`) and `parseErr` (the error-path
`res.json()` read as `\x7b detail?: string \x7d`). -/
def request {T : Type} (parseData : String → Option T)
    (parseErr : String → Option ErrBody) (res : HttpResult) : RequestOutcome T :=
  if res.ok then
    match parseData res.body with
    | some v => .resolved v
    | none => .jsonFailure
  else
    .throwsError (requestErrorMessage parseErr res)

/-- C9: `request<T>` resolves with the parsed JSON body exactly when
`res.ok` holds; otherwise it throws an `Error` whose message is the error
body's `detail` field when that body parses as JSON and carries one, and
`"API error {status}"` otherwise — a failing status is never returned as
data, and a malformed error body never masks the failure. -/
theorem c9_request_error_handling {T : Type} (parseData : String → Option T)
    (parseErr : String → Option ErrBody) (res : HttpResult) :
    (res.ok = true → ∀ v, parseData res.body = some v →
      request parseData parseErr res = .resolved v) ∧
    (res.ok = false →
      request parseData parseErr res = .throwsError (requestErrorMessage parseErr res)) ∧
    (res.ok = false → ∀ v, request parseData parseErr res ≠ .resolved v) ∧
    ((∃ v, request parseData parseErr res = .resolved v) → res.ok = true) ∧
    (∀ b d, parseErr res.body = some b → b.detail = some d →
      requestErrorMessage parseErr res = d) ∧
    (∀ b, parseErr res.body = some b → b.detail = none →
      requestErrorMessage parseErr res = "API error " ++ toString res.status) ∧
    (parseErr res.body = none →
      requestErrorMessage parseErr res = "API error " ++ toString res.status) := by
  refine ⟨?_, ?_, ?_, ?_, ?_, ?_, ?_⟩
  · intro hok v hv
    simp [request, hok, hv]
  · intro hok
    simp [request, hok]
  · intro hok v
    simp [request, hok]
  · rintro ⟨v, hv⟩
    cases hok : res.ok with
    | true => rfl
    | false => simp [request, hok] at hv
  · intro b d hb hd
    simp [requestErrorMessage, hb, hd]
  · intro b hb hd
    simp [requestErrorMessage, hb, hd]
  · intro hb
    simp [requestErrorMessage, hb]

/-- Witness for C9: a 404 whose body parses with `detail = "boom"` rejects
with exactly that message, and a response with an unparseable error body
rejects with `"API error 500"`. -/
theorem c9_request_error_handling_witness :
    request (T := ℕ) (fun _ => some 7)
        (fun s => if s = "err" then some ⟨some "boom"⟩ else none)
        ⟨false, 404, "err"⟩ = .throwsError "boom" ∧
    request (T := ℕ) (fun _ => some 7) (fun _ => none)
        ⟨false, 500, "garbage"⟩ = .throwsError "API error 500" := by
  constructor
  · have h := c9_request_error_handling (T := ℕ) (fun _ => some 7)
      (fun s => if s = "err" then some ⟨some "boom"⟩ else none) ⟨false, 404, "err"⟩
    have h2 := h.2.1 rfl
    have h3 := h.2.2.2.2.1 ⟨some "boom"⟩ "boom" (by simp) rfl
    rw [h2, h3]
  · have h := c9_request_error_handling (T := ℕ) (fun _ => some 7)
      (fun _ => none) ⟨false, 500, "garbage"⟩
    have h2 := h.2.1 rfl
    have h3 := h.2.2.2.2.2.2 rfl
    rw [h2, h3]
    rfl

/-- A repository row as held in the repositories page's React state
(`Repository` in `frontend/lib/api.ts`, restricted to the fields the list
logic touches). -/
structure Repo : Type where
  id : ℕ
  name : String
  full_name : String
deriving DecidableEq, Repr

/-- `handleImported` of `frontend/app/(dashboard)/repositories/page.tsx`:
`prev.find((r) => r.id === repo.id) ? prev : [repo, ...prev]`. -/
def handleImported (repo : Repo) (prev : List Repo) : List Repo :=
  if (prev.find? (fun r => r.id == repo.id)).isSome then prev else repo :: prev

/-- `handleDelete` of `frontend/app/(dashboard)/repositories/page.tsx`:
`prev.filter((r) => r.id !== id)`. -/
def handleDelete (id : ℕ) (prev : List Repo) : List Repo :=
  prev.filter (fun r => r.id != id)

/-- C10: starting from a list with pairwise-distinct ids, `handleImported`
is a no-op when the id is already present and otherwise prepends the new
repository, `handleDelete` removes exactly the repositories with the given
id, and both preserve distinctness of ids. -/
theorem c10_repo_list_distinct_ids (repo : Repo) (prev : List Repo)
    (hnd : (prev.map Repo.id).Nodup) :
    ((∃ r ∈ prev, r.id = repo.id) → handleImported repo prev = prev) ∧
    ((∀ r ∈ prev, r.id ≠ repo.id) → handleImported repo prev = repo :: prev) ∧
    ((handleImported repo prev).map Repo.id).Nodup ∧
    (∀ i, ((handleDelete i prev).map Repo.id).Nodup) ∧
    (∀ i r, r ∈ handleDelete i prev ↔ r ∈ prev ∧ r.id ≠ i) := by
  refine ⟨?_, ?_, ?_, ?_, ?_⟩
  · rintro ⟨r, hr, hid⟩
    have : (prev.find? (fun r => r.id == repo.id)).isSome := by
      rw [List.find?_isSome]
      exact ⟨r, hr, by simp [hid]⟩
    simp [handleImported, this]
  · intro hall
    have : ¬ (prev.find? (fun r => r.id == repo.id)).isSome := by
      rw [List.find?_isSome]
      rintro ⟨r, hr, hid⟩
      exact hall r hr (by simpa using hid)
    simp [handleImported, this]
  · unfold handleImported
    split_ifs with h
    · exact hnd
    · rw [List.find?_isSome] at h
      push_neg at h
      simp only [List.map_cons, List.nodup_cons]
      refine ⟨?_, hnd⟩
      rw [List.mem_map]
      rintro ⟨r, hr, hid⟩
      exact h r hr (by simp [hid])
  · intro i
    exact hnd.sublist ((List.filter_sublist prev).map Repo.id)
  · intro i r
    simp [handleDelete, List.mem_filter, bne_iff_ne]

/-- Witness for C10: a two-element list with distinct ids; re-importing an
existing id is a no-op and deleting id 2 keeps exactly the other row. -/
theorem c10_repo_list_distinct_ids_witness :
    handleImported ⟨1, "a", "o/a"⟩ [⟨1, "a", "o/a"⟩, ⟨2, "b", "o/b"⟩] =
      [⟨1, "a", "o/a"⟩, ⟨2, "b", "o/b"⟩] ∧
    (⟨1, "a", "o/a"⟩ : Repo) ∈ handleDelete 2 [⟨1, "a", "o/a"⟩, ⟨2, "b", "o/b"⟩] := by
  have h := c10_repo_list_distinct_ids ⟨1, "a", "o/a"⟩
    [⟨1, "a", "o/a"⟩, ⟨2, "b", "o/b"⟩] (by decide)
  constructor
  · exact h.1 ⟨⟨1, "a", "o/a"⟩, by simp, rfl⟩
  · exact ((h.2.2.2.2 2 ⟨1, "a", "o/a"⟩).mpr ⟨by simp, by decide⟩)

/-- Lower-cased character list of a string, for the case-insensitive keyword
and search matching of §4.1 and §4.4. -/
def charsLower (s : String) : List Char :=
  s.toList.map Char.toLower

/-- `leadMatch needle hay` holds when `needle` occurs at the start of `hay`. -/
def leadMatch : List Char → List Char → Bool
  | [], _ => true
  | _ :: _, [] => false
  | a :: as, b :: bs => a == b && leadMatch as bs

/-- `subMatch needle hay` holds when `needle` occurs contiguously somewhere
inside `hay`. -/
def subMatch (needle : List Char) : List Char → Bool
  | [] => needle.isEmpty
  | b :: bs => leadMatch needle (b :: bs) || subMatch needle bs

/-- Case-insensitive substring test between strings. -/
def containsCI (needle hay : String) : Bool :=
  subMatch (charsLower needle) (charsLower hay)

/-- Modelled from the spec: the fixed risky-keyword set of §4.1 (the feature
extractor is not part of the shipped sources). -/
def riskyKeywords : List String :=
  ["hotfix", "urgent", "revert", "security", "critical", "breaking"]

/-- Modelled from the spec: §4.1 keyword detection — case-insensitive
substring matching of the commit message against the risky-keyword set; any
match sets `risky_keyword_hit` true. -/
def riskyKeywordHit (message : String) : Bool :=
  riskyKeywords.any (fun k => containsCI k message)

/-- Raw commit data as supplied to `POST /predictions` (§6): sha, repository,
optional diff stats and message; missing fields are the request's optional
fields. -/
structure CommitInput : Type where
  sha : String
  repository_full_name : String
  lines_added : Option ℕ
  lines_deleted : Option ℕ
  files_changed : Option ℕ
  commit_message : Option String
  author_email : Option String
deriving DecidableEq, Repr

/-- The normalized feature vector of §3. -/
structure FeatureVector : Type where
  lines_added : ℕ
  lines_deleted : ℕ
  total_lines_changed : ℕ
  files_changed : ℕ
  risky_keyword_hit : Bool
  code_churn_ratio : ℚ
  risk_density : ℚ
deriving DecidableEq, Repr

/-- Modelled from the spec: `extract(commit) -> FeatureVector` of §4.1/§3 —
pure and total, missing diff stats default to zero and a missing message to
the empty string; `code_churn_ratio = lines_added / (lines_deleted + 1)` and
`risk_density = files_changed / (total_lines_changed + 1)`. -/
def extract (c : CommitInput) : FeatureVector :=
  let la := c.lines_added.getD 0
  let ld := c.lines_deleted.getD 0
  let fc := c.files_changed.getD 0
  let msg := c.commit_message.getD ""
  { lines_added := la
    lines_deleted := ld
    total_lines_changed := la + ld
    files_changed := fc
    risky_keyword_hit := riskyKeywordHit msg
    code_churn_ratio := (la : ℚ) / ((ld : ℚ) + 1)
    risk_density := (fc : ℚ) / (((la + ld : ℕ) : ℚ) + 1) }

/-- Formula for `risk_density` given in the in-repo AI-model engineering
document (`src/unnamed/part_007`, "Derived Features"): `files_changed /
total_lines_changed`, without the `+ 1` guard of the spec. -/
def aiDocRiskDensity (fv : FeatureVector) : ℚ :=
  (fv.files_changed : ℚ) / (fv.total_lines_changed : ℚ)

/-- Modelled from the spec: the lines-changed tier of the rule-based scorer
(§4.2) — `total_lines_changed > 500 → +40; else if > 200 → +25`, so only the
higher tier ever applies. -/
def linesPts (fv : FeatureVector) : ℕ :=
  if fv.total_lines_changed > 500 then 40
  else if fv.total_lines_changed > 200 then 25
  else 0

/-- Modelled from the spec: the files-changed rule of §4.2 —
`files_changed > 20 → +30`. -/
def filesPts (fv : FeatureVector) : ℕ :=
  if fv.files_changed > 20 then 30 else 0

/-- Modelled from the spec: the risky-keyword rule of §4.2 —
`risky_keyword_hit → +15`. -/
def keywordPts (fv : FeatureVector) : ℕ :=
  if fv.risky_keyword_hit then 15 else 0

/-- Modelled from the spec: the raw additive sum of the three independent
rules of §4.2, evaluated in their fixed order. -/
def ruleScoreRaw (fv : FeatureVector) : ℕ :=
  linesPts fv + filesPts fv + keywordPts fv

/-- A scorer output (§4.2): score, level, confidence and model-version tag. -/
structure RiskResult : Type where
  risk_score : ℕ
  risk_level : RiskLevel
  confidence : Option ℚ
  model_version : String
deriving DecidableEq, Repr

/-- Modelled from the spec: the rule-based scorer variant `rule-v1` of §4.2 —
raw sum clamped to [0, 100] (the lower clamp is vacuous over ℕ), level from
the boundary table, confidence the fixed constant 0.75. -/
def ruleScorer (fv : FeatureVector) : RiskResult :=
  { risk_score := min (ruleScoreRaw fv) 100
    risk_level := riskLevelOfScore (min (ruleScoreRaw fv) 100)
    confidence := some (3 / 4 : ℚ)
    model_version := "rule-v1" }

/-- Scenario A input of §8: lines_added=600, lines_deleted=50,
files_changed=25, message "hotfix: urgent patch". -/
def scenarioACommit : CommitInput :=
  { sha := "a3f2c1d"
    repository_full_name := "owner/api-service"
    lines_added := some 600
    lines_deleted := some 50
    files_changed := some 25
    commit_message := some "hotfix: urgent patch"
    author_email := none }

/-- C1: the rule-based scorer is the clamped sum of the three independent
rules, the lines tiers are mutually exclusive with only the higher one
applying, confidence is the constant 0.75, and Scenario A (600 added, 50
deleted, 25 files, "hotfix: urgent patch") scores exactly 85 / HIGH / 0.75
under model version rule-v1. -/
theorem c1_rule_scorer_additive :
    (∀ fv : FeatureVector,
      (ruleScorer fv).risk_score = min (linesPts fv + filesPts fv + keywordPts fv) 100 ∧
      (500 < fv.total_lines_changed → linesPts fv = 40) ∧
      (200 < fv.total_lines_changed → fv.total_lines_changed ≤ 500 → linesPts fv = 25) ∧
      (fv.total_lines_changed ≤ 200 → linesPts fv = 0) ∧
      (20 < fv.files_changed → filesPts fv = 30) ∧
      (fv.files_changed ≤ 20 → filesPts fv = 0) ∧
      (fv.risky_keyword_hit = true → keywordPts fv = 15) ∧
      (fv.risky_keyword_hit = false → keywordPts fv = 0) ∧
      (ruleScorer fv).risk_score ≤ 100 ∧
      (ruleScorer fv).confidence = some (0.75 : ℚ) ∧
      (ruleScorer fv).model_version = "rule-v1" ∧
      (ruleScorer fv).risk_level = riskLevelOfScore (ruleScorer fv).risk_score) ∧
    ruleScorer (extract scenarioACommit) =
      { risk_score := 85, risk_level := .HIGH,
        confidence := some (0.75 : ℚ), model_version := "rule-v1" } := by
  constructor
  · intro fv
    refine ⟨rfl, ?_, ?_, ?_, ?_, ?_, ?_, ?_, ?_, ?_, rfl, rfl⟩
    · intro h; simp [linesPts, h]
    · intro h1 h2; simp only [linesPts]; split_ifs <;> omega
    · intro h; simp only [linesPts]; split_ifs <;> omega
    · intro h; simp [filesPts, h]
    · intro h; simp only [filesPts]; split_ifs <;> omega
    · intro h; simp [keywordPts, h]
    · intro h; simp [keywordPts, h]
    · exact Nat.min_le_right _ _
    · show some (3 / 4 : ℚ) = some (0.75 : ℚ)
      norm_num
  · have hraw : ruleScoreRaw (extract scenarioACommit) = 85 := by decide
    norm_num [ruleScorer, hraw, riskLevelOfScore]

/-- Witness for C1: the universal part applied to the Scenario A feature
vector, whose lines tier is the higher one (+40). -/
theorem c1_rule_scorer_additive_witness :
    linesPts (extract scenarioACommit) = 40 ∧
    (ruleScorer (extract scenarioACommit)).risk_score ≤ 100 := by
  have h := c1_rule_scorer_additive.1 (extract scenarioACommit)
  exact ⟨h.2.1 (by decide), h.2.2.2.2.2.2.2.2.1⟩

/-- C7: `extract` is pure and total — missing diff stats default to zero and
a missing message to the empty string, and both derived ratios are exact
divisions by the never-zero guarded denominators `lines_deleted + 1` and
`total_lines_changed + 1`. -/
theorem c7_extract_total_guarded (c : CommitInput) :
    (extract c).lines_added = c.lines_added.getD 0 ∧
    (extract c).lines_deleted = c.lines_deleted.getD 0 ∧
    (extract c).files_changed = c.files_changed.getD 0 ∧
    (extract c).total_lines_changed =
      (extract c).lines_added + (extract c).lines_deleted ∧
    (extract c).risky_keyword_hit = riskyKeywordHit (c.commit_message.getD "") ∧
    (((extract c).lines_deleted : ℚ) + 1) ≠ 0 ∧
    (((extract c).total_lines_changed : ℚ) + 1) ≠ 0 ∧
    (extract c).code_churn_ratio * (((extract c).lines_deleted : ℚ) + 1) =
      ((extract c).lines_added : ℚ) ∧
    (extract c).risk_density * (((extract c).total_lines_changed : ℚ) + 1) =
      ((extract c).files_changed : ℚ) := by
  refine ⟨rfl, rfl, rfl, rfl, rfl, ?_, ?_, ?_, ?_⟩
  · exact Nat.cast_add_one_ne_zero _
  · exact Nat.cast_add_one_ne_zero _
  · exact div_mul_cancel₀ _ (Nat.cast_add_one_ne_zero _)
  · exact div_mul_cancel₀ _ (Nat.cast_add_one_ne_zero _)

/-- A persisted commit row (§3): identifier, parent repository, sha, and the
backfillable optional fields. -/
structure StoredCommit : Type where
  id : ℕ
  repository_id : ℕ
  sha : String
  message : Option String
  lines_added : Option ℕ
  lines_deleted : Option ℕ
  files_changed : Option ℕ
deriving DecidableEq, Repr

/-- The optional incoming fields of `upsertCommit` (§4.3). -/
structure CommitFields : Type where
  message : Option String
  lines_added : Option ℕ
  lines_deleted : Option ℕ
  files_changed : Option ℕ
deriving DecidableEq, Repr

/-- The natural key of §4.3: a commit row matches `(repository_id, sha)`. -/
def commitKey (repoId : ℕ) (sha : String) (c : StoredCommit) : Bool :=
  c.repository_id == repoId && c.sha == sha

/-- Modelled from the spec: the merge step of `upsertCommit` (§4.3) — the
identifier and sha are immutable and non-null incoming fields overwrite the
stored values (last-non-null-wins, the assumption §9 records). -/
def mergeFields (c : StoredCommit) (f : CommitFields) : StoredCommit :=
  { c with
    message := match f.message with | some m => some m | none => c.message
    lines_added := match f.lines_added with | some v => some v | none => c.lines_added
    lines_deleted := match f.lines_deleted with | some v => some v | none => c.lines_deleted
    files_changed := match f.files_changed with | some v => some v | none => c.files_changed }

/-- A fresh commit row created by `upsertCommit` for an unseen key. -/
def newCommit (id repoId : ℕ) (sha : String) (f : CommitFields) : StoredCommit :=
  ⟨id, repoId, sha, f.message, f.lines_added, f.lines_deleted, f.files_changed⟩

/-- The commit table with its identifier sequence. -/
structure CommitStore : Type where
  commits : List StoredCommit
  nextCommitId : ℕ
deriving DecidableEq, Repr

/-- Modelled from the spec: `upsertCommit(repository_id, sha, fields)` of
§4.3 — idempotent by `(repository_id, sha)`, resolving an existing key as an
update (never an insert) and otherwise inserting a fresh row. -/
def upsertCommit (repoId : ℕ) (sha : String) (f : CommitFields)
    (s : CommitStore) : CommitStore :=
  if s.commits.any (commitKey repoId sha) then
    { s with commits := s.commits.map fun c =>
        if commitKey repoId sha c then mergeFields c f else c }
  else
    { s with
      commits := s.commits ++ [newCommit s.nextCommitId repoId sha f]
      nextCommitId := s.nextCommitId + 1 }

/-- Merging does not touch the key or the identifier. -/
theorem commitKey_mergeFields (repoId : ℕ) (sha : String) (c : StoredCommit)
    (f : CommitFields) : commitKey repoId sha (mergeFields c f) = commitKey repoId sha c :=
  rfl

/-- Merging the same incoming fields twice is the same as merging them once. -/
theorem mergeFields_idem (c : StoredCommit) (f : CommitFields) :
    mergeFields (mergeFields c f) f = mergeFields c f := by
  rcases f with ⟨m, la, ld, fc⟩
  cases m <;> cases la <;> cases ld <;> cases fc <;> rfl

/-- Merging the fields a fresh row was created from changes nothing. -/
theorem mergeFields_newCommit (id repoId : ℕ) (sha : String) (f : CommitFields) :
    mergeFields (newCommit id repoId sha f) f = newCommit id repoId sha f := by
  rcases f with ⟨m, la, ld, fc⟩
  cases m <;> cases la <;> cases ld <;> cases fc <;> rfl

/-- One `upsertCommit` call leaves the store with the key present and, when
the key was already present, with the commit count unchanged. -/
theorem upsertCommit_upsertCommit (repoId : ℕ) (sha : String) (f : CommitFields)
    (s : CommitStore) :
    upsertCommit repoId sha f (upsertCommit repoId sha f s) = upsertCommit repoId sha f s := by
  have step : ∀ s' : CommitStore, s'.commits.any (commitKey repoId sha) = true →
      (s'.commits.map fun c =>
        if commitKey repoId sha c then mergeFields c f else c) = s'.commits →
      upsertCommit repoId sha f s' = s' := by
    intro s' h1 h2
    simp only [upsertCommit, if_pos h1, h2]
  by_cases h : s.commits.any (commitKey repoId sha)
  · have hkey : ∀ c : StoredCommit,
        commitKey repoId sha (if commitKey repoId sha c then mergeFields c f else c) =
          commitKey repoId sha c := by
      intro c
      by_cases hc : commitKey repoId sha c <;> simp [hc, commitKey_mergeFields]
    have hany : ((upsertCommit repoId sha f s).commits).any (commitKey repoId sha) = true := by
      simp only [upsertCommit, if_pos h]
      simpa [List.any_map, Function.comp, hkey] using h
    have hmap :
        (((upsertCommit repoId sha f s).commits).map fun c =>
            if commitKey repoId sha c then mergeFields c f else c) =
          (upsertCommit repoId sha f s).commits := by
      simp only [upsertCommit, if_pos h, List.map_map]
      refine List.map_congr_left ?_
      intro c _
      by_cases hc : commitKey repoId sha c
      · simp [Function.comp, hc, commitKey_mergeFields, mergeFields_idem]
      · simp [Function.comp, hc]
    exact step _ hany hmap
  · have hnew : commitKey repoId sha (newCommit s.nextCommitId repoId sha f) = true := by
      simp [commitKey, newCommit]
    have hany : ((upsertCommit repoId sha f s).commits).any (commitKey repoId sha) = true := by
      simp only [upsertCommit, if_neg h]
      simp [List.any_append, hnew]
    have hall : ∀ c ∈ s.commits, ¬ commitKey repoId sha c :=
      List.any_eq_false.mp (by simpa using h)
    have hmap :
        (((upsertCommit repoId sha f s).commits).map fun c =>
            if commitKey repoId sha c then mergeFields c f else c) =
          (upsertCommit repoId sha f s).commits := by
      simp only [upsertCommit, if_neg h, List.map_append]
      congr 1
      · have hid : (s.commits.map fun c =>
            if commitKey repoId sha c then mergeFields c f else c) = s.commits.map id :=
          List.map_congr_left (fun c hc => by simp [hall c hc])
        rw [hid, List.map_id]
      · simp [hnew, mergeFields_newCommit]
    exact step _ hany hmap

/-- C4: `upsertCommit` is idempotent by `(repository_id, sha)` — repeating a
call with identical fields returns the very same store, in particular never
creates a second row and keeps the commit count unchanged; a call whose key
is already present keeps the count unchanged; and the update step never
touches the identifier, `repository_id` or sha of any stored row. -/
theorem c4_upsertCommit_idempotent (repoId : ℕ) (sha : String) (f : CommitFields)
    (s : CommitStore) :
    upsertCommit repoId sha f (upsertCommit repoId sha f s) = upsertCommit repoId sha f s ∧
    (upsertCommit repoId sha f (upsertCommit repoId sha f s)).commits.length =
      (upsertCommit repoId sha f s).commits.length ∧
    ((∃ c ∈ s.commits, commitKey repoId sha c) →
      (upsertCommit repoId sha f s).commits.length = s.commits.length) ∧
    (∀ c : StoredCommit, (mergeFields c f).id = c.id ∧ (mergeFields c f).sha = c.sha ∧
      (mergeFields c f).repository_id = c.repository_id) ∧
    (∀ c : StoredCommit, f.message = none → (mergeFields c f).message = c.message) ∧
    (∀ (c : StoredCommit) (m : String), f.message = some m →
      (mergeFields c f).message = some m) := by
  refine ⟨upsertCommit_upsertCommit repoId sha f s,
    by rw [upsertCommit_upsertCommit repoId sha f s], ?_, ?_, ?_, ?_⟩
  · rintro ⟨c, hc, hkey⟩
    have h : s.commits.any (commitKey repoId sha) := List.any_eq_true.mpr ⟨c, hc, hkey⟩
    simp only [upsertCommit]
    rw [if_pos h]
    simp
  · intro c; exact ⟨rfl, rfl, rfl⟩
  · intro c hm; simp [mergeFields, hm]
  · intro c m hm; simp [mergeFields, hm]

/-- Witness for C4: upserting the same key and fields twice into an empty
store leaves exactly the one row created by the first call. -/
theorem c4_upsertCommit_idempotent_witness :
    (upsertCommit 1 "abc" ⟨some "m", some 5, some 2, some 3⟩
      (upsertCommit 1 "abc" ⟨some "m", some 5, some 2, some 3⟩ ⟨[], 0⟩)).commits.length = 1 ∧
    (upsertCommit 1 "abc" ⟨some "m", some 5, some 2, some 3⟩
      (upsertCommit 1 "abc" ⟨some "m", some 5, some 2, some 3⟩ ⟨[], 0⟩)) =
      upsertCommit 1 "abc" ⟨some "m", some 5, some 2, some 3⟩ ⟨[], 0⟩ := by
  have h := c4_upsertCommit_idempotent 1 "abc" ⟨some "m", some 5, some 2, some 3⟩ ⟨[], 0⟩
  constructor
  · rw [h.1]; decide
  · exact h.1

/-- A persisted risk assessment row (§3). -/
structure Assessment : Type where
  id : ℕ
  commit_id : ℕ
  risk_score : ℕ
  risk_level : RiskLevel
  confidence : Option ℚ
  model_version : String
  created_at : ℕ
deriving DecidableEq, Repr

/-- The assessment table with its identifier sequence. -/
structure AssessStore : Type where
  rows : List Assessment
  nextAssessId : ℕ
deriving DecidableEq, Repr

/-- Modelled from the spec: `recordAssessment(commit_id, risk_result,
model_version)` of §4.3 — always inserts a new row (re-analysis is additive
history, not replacement); `t` is the row's `created_at`. -/
def recordAssessment (commitId : ℕ) (r : RiskResult) (mv : String) (t : ℕ)
    (s : AssessStore) : AssessStore :=
  { rows := s.rows ++
      [⟨s.nextAssessId, commitId, r.risk_score, r.risk_level, r.confidence, mv, t⟩]
    nextAssessId := s.nextAssessId + 1 }

/-- Row filter of `latestAssessment` (§4.3): the commit matches and, when a
model version is requested, the version matches too. -/
def assessMatches (commitId : ℕ) (mv : Option String) (a : Assessment) : Bool :=
  a.commit_id == commitId &&
    (match mv with | none => true | some v => a.model_version == v)

/-- The row that wins the "latest" resolution between two rows (§5): larger
`created_at` wins, a `created_at` tie is broken by assessment identifier
ascending. -/
def laterOf (x y : Assessment) : Assessment :=
  if x.created_at < y.created_at then y
  else if y.created_at < x.created_at then x
  else if x.id ≤ y.id then x else y

/-- Modelled from the spec: `latestAssessment(commit_id, model_version =
any)` of §4.3 — the most recently created matching assessment, or absent. -/
def latestAssessment (commitId : ℕ) (mv : Option String) (s : AssessStore) :
    Option Assessment :=
  match s.rows.filter (assessMatches commitId mv) with
  | [] => none
  | h :: t => some (t.foldl laterOf h)

/-- `laterOf` picks one of its two arguments. -/
theorem laterOf_or (x y : Assessment) : laterOf x y = x ∨ laterOf x y = y := by
  unfold laterOf
  split_ifs <;> simp

/-- `laterOf` surfaces over both of its arguments: it has the larger
`created_at`, and the smaller id in case of a tie. -/
theorem laterOf_surfaces (x y : Assessment) :
    (x.created_at ≤ (laterOf x y).created_at ∧
      (x.created_at = (laterOf x y).created_at → (laterOf x y).id ≤ x.id)) ∧
    (y.created_at ≤ (laterOf x y).created_at ∧
      (y.created_at = (laterOf x y).created_at → (laterOf x y).id ≤ y.id)) := by
  unfold laterOf
  split_ifs with h1 h2 h3 <;>
    exact ⟨⟨by omega, fun hh => by omega⟩, ⟨by omega, fun hh => by omega⟩⟩

/-- The `laterOf` fold picks an element of the candidate list. -/
theorem foldl_laterOf_mem :
    ∀ (t : List Assessment) (h : Assessment), t.foldl laterOf h ∈ h :: t := by
  intro t
  induction t with
  | nil => intro h; simp
  | cons y t' ih =>
    intro h
    have hm := ih (laterOf h y)
    rcases List.mem_cons.mp hm with hm | hm
    · rcases laterOf_or h y with he | he
      · rw [List.foldl_cons, hm, he]
        exact List.mem_cons_self _ _
      · rw [List.foldl_cons, hm, he]
        exact List.mem_cons_of_mem _ (List.mem_cons_self _ _)
    · rw [List.foldl_cons]
      exact List.mem_cons_of_mem _ (List.mem_cons_of_mem _ hm)

/-- The `laterOf` fold surfaces over every candidate: no candidate has a
larger `created_at`, and on a `created_at` tie the fold's id is the smaller. -/
theorem foldl_laterOf_surfaces :
    ∀ (t : List Assessment) (h : Assessment), ∀ x ∈ h :: t,
      x.created_at ≤ (t.foldl laterOf h).created_at ∧
      (x.created_at = (t.foldl laterOf h).created_at → (t.foldl laterOf h).id ≤ x.id) := by
  intro t
  induction t with
  | nil =>
    intro h x hx
    simp only [List.mem_singleton] at hx
    subst hx
    exact ⟨le_refl _, fun _ => le_refl _⟩
  | cons y t' ih =>
    intro h x hx
    simp only [List.foldl_cons]
    have hself := ih (laterOf h y) (laterOf h y) (List.mem_cons_self _ _)
    rcases List.mem_cons.mp hx with hxh | hx2
    · subst hxh
      obtain ⟨hc1, hid1⟩ := (laterOf_surfaces x y).1
      refine ⟨le_trans hc1 hself.1, fun hh => ?_⟩
      have e2 : (laterOf x y).created_at = ((t'.foldl laterOf (laterOf x y)).created_at) := by
        omega
      have e1 : x.created_at = (laterOf x y).created_at := by omega
      exact le_trans (hself.2 e2) (hid1 e1)
    rcases List.mem_cons.mp hx2 with hxy | hxt
    · subst hxy
      obtain ⟨hc1, hid1⟩ := (laterOf_surfaces h x).2
      refine ⟨le_trans hc1 hself.1, fun hh => ?_⟩
      have e2 : (laterOf h x).created_at = ((t'.foldl laterOf (laterOf h x)).created_at) := by
        omega
      have e1 : x.created_at = (laterOf h x).created_at := by omega
      exact le_trans (hself.2 e2) (hid1 e1)
    · exact ih (laterOf h y) x (List.mem_cons_of_mem _ hxt)

/-- C3: `recordAssessment` always inserts and never overwrites — each call
appends one row, so analyzing the same commit twice leaves two assessment
rows; `latestAssessment` surfaces the matching row that is first in
created_at-descending (id-ascending on ties) order; and after two analyses
of a commit with a fresh history, it returns the row with the larger
`created_at`. -/
theorem c3_reanalysis_additive :
    (∀ (cid : ℕ) (r : RiskResult) (mv : String) (t : ℕ) (s : AssessStore),
      (recordAssessment cid r mv t s).rows =
        s.rows ++ [⟨s.nextAssessId, cid, r.risk_score, r.risk_level, r.confidence, mv, t⟩] ∧
      (recordAssessment cid r mv t s).rows.length = s.rows.length + 1) ∧
    (∀ (cid : ℕ) (r₁ r₂ : RiskResult) (mv₁ mv₂ : String) (t₁ t₂ : ℕ) (s : AssessStore),
      (recordAssessment cid r₂ mv₂ t₂ (recordAssessment cid r₁ mv₁ t₁ s)).rows.length =
        s.rows.length + 2) ∧
    (∀ (cid : ℕ) (mv : Option String) (s : AssessStore),
      (latestAssessment cid mv s = none ↔ s.rows.filter (assessMatches cid mv) = []) ∧
      (∀ a, latestAssessment cid mv s = some a →
        a ∈ s.rows.filter (assessMatches cid mv) ∧
        ∀ x ∈ s.rows.filter (assessMatches cid mv),
          x.created_at ≤ a.created_at ∧ (x.created_at = a.created_at → a.id ≤ x.id))) ∧
    (∀ (cid : ℕ) (r₁ r₂ : RiskResult) (mv₁ mv₂ : String) (t₁ t₂ : ℕ) (s : AssessStore),
      (∀ x ∈ s.rows, x.commit_id ≠ cid) → t₁ < t₂ →
      latestAssessment cid none
          (recordAssessment cid r₂ mv₂ t₂ (recordAssessment cid r₁ mv₁ t₁ s)) =
        some ⟨s.nextAssessId + 1, cid, r₂.risk_score, r₂.risk_level,
          r₂.confidence, mv₂, t₂⟩) := by
  refine ⟨?_, ?_, ?_, ?_⟩
  · intro cid r mv t s
    exact ⟨rfl, by simp [recordAssessment]⟩
  · intro cid r₁ r₂ mv₁ mv₂ t₁ t₂ s
    simp [recordAssessment]
  · intro cid mv s
    rcases hfil : s.rows.filter (assessMatches cid mv) with _ | ⟨h0, t0⟩
    · constructor
      · simp [latestAssessment, hfil]
      · intro a ha
        simp [latestAssessment, hfil] at ha
    · constructor
      · simp [latestAssessment, hfil]
      · intro a ha
        simp only [latestAssessment, hfil] at ha
        have ha2 : t0.foldl laterOf h0 = a := by
          injection ha
        refine ⟨?_, ?_⟩
        · rw [← ha2]
          exact foldl_laterOf_mem t0 h0
        · intro x hx
          rw [← ha2]
          exact foldl_laterOf_surfaces t0 h0 x hx
  · intro cid r₁ r₂ mv₁ mv₂ t₁ t₂ s hno ht
    have h0 : s.rows.filter (assessMatches cid none) = [] :=
      List.filter_eq_nil_iff.mpr (fun a ha => by simp [assessMatches, hno a ha])
    have hfil :
        ((recordAssessment cid r₂ mv₂ t₂ (recordAssessment cid r₁ mv₁ t₁ s)).rows).filter
            (assessMatches cid none) =
          [⟨s.nextAssessId, cid, r₁.risk_score, r₁.risk_level, r₁.confidence, mv₁, t₁⟩,
           ⟨s.nextAssessId + 1, cid, r₂.risk_score, r₂.risk_level, r₂.confidence, mv₂, t₂⟩] := by
      have hr : (recordAssessment cid r₂ mv₂ t₂ (recordAssessment cid r₁ mv₁ t₁ s)).rows =
          (s.rows ++
            [⟨s.nextAssessId, cid, r₁.risk_score, r₁.risk_level, r₁.confidence, mv₁, t₁⟩]) ++
          [⟨s.nextAssessId + 1, cid, r₂.risk_score, r₂.risk_level, r₂.confidence, mv₂, t₂⟩] :=
        rfl
      rw [hr, List.filter_append, List.filter_append, h0]
      simp [assessMatches]
    simp only [latestAssessment, hfil, List.foldl_cons, List.foldl_nil]
    simp [laterOf, ht]

/-- Witness for C3: two analyses of commit 7 on an empty store leave two
rows and `latestAssessment` surfaces the second one (`created_at` 2). -/
theorem c3_reanalysis_additive_witness :
    (recordAssessment 7 ⟨20, .LOW, none, "rule-v1"⟩ "rule-v1" 2
      (recordAssessment 7 ⟨10, .LOW, none, "rule-v1"⟩ "rule-v1" 1
        ⟨[], 0⟩)).rows.length = 0 + 2 ∧
    latestAssessment 7 none
        (recordAssessment 7 ⟨20, .LOW, none, "rule-v1"⟩ "rule-v1" 2
          (recordAssessment 7 ⟨10, .LOW, none, "rule-v1"⟩ "rule-v1" 1 ⟨[], 0⟩)) =
      some ⟨0 + 1, 7, 20, .LOW, none, "rule-v1", 2⟩ := by
  have h := c3_reanalysis_additive
  constructor
  · exact h.2.1 7 ⟨10, .LOW, none, "rule-v1"⟩ ⟨20, .LOW, none, "rule-v1"⟩
      "rule-v1" "rule-v1" 1 2 ⟨[], 0⟩
  · exact h.2.2.2 7 ⟨10, .LOW, none, "rule-v1"⟩ ⟨20, .LOW, none, "rule-v1"⟩
      "rule-v1" "rule-v1" 1 2 ⟨[], 0⟩ (by simp) (by omega)

/-- One row of the risk-distribution response
(`RiskDistributionEntry` in `frontend/lib/api.ts`): level, count and
independently rounded percentage. -/
structure DistEntry : Type where
  level : RiskLevel
  count : ℕ
  percentage : ℤ
deriving DecidableEq, Repr

/-- Number of working-set assessments carrying a given level. -/
def levelCount (l : List Assessment) (lv : RiskLevel) : ℕ :=
  (l.filter (fun a => a.risk_level == lv)).length

/-- Modelled from the spec: the per-level percentage of §4.4, rounded
independently of the other levels. -/
def levelPercentage (l : List Assessment) (lv : RiskLevel) : ℤ :=
  round (((levelCount l lv : ℚ) * 100) / (l.length : ℚ))

/-- Modelled from the spec: the risk-distribution operation of §4.4 over the
latest-assessment working set — count and percentage per level plus the
total, returning an empty distribution with total 0 (not an error) when
there are no assessments (§7). -/
def riskDistribution (l : List Assessment) : List DistEntry × ℕ :=
  if l.length = 0 then ([], 0)
  else (([RiskLevel.LOW, RiskLevel.MEDIUM, RiskLevel.HIGH]).map
    (fun lv => ⟨lv, levelCount l lv, levelPercentage l lv⟩), l.length)

/-- Every assessment carries exactly one level, so the three per-level
counts partition the working set. -/
theorem levelCount_partition (l : List Assessment) :
    levelCount l .LOW + levelCount l .MEDIUM + levelCount l .HIGH = l.length := by
  induction l with
  | nil => rfl
  | cons a t ih =>
    simp only [levelCount, List.filter_cons] at ih ⊢
    cases h : a.risk_level <;> simp [h] <;> omega

/-- C5: the distribution's counts sum to the reported total exactly, the
independently rounded percentages sum to within ±1 of 100 whenever the
working set is non-empty, and an empty working set yields total 0 with an
empty distribution rather than an error. -/
theorem c5_distribution_sums (l : List Assessment) :
    ((riskDistribution l).1.map DistEntry.count).sum = (riskDistribution l).2 ∧
    (riskDistribution l).2 = l.length ∧
    (l = [] → riskDistribution l = ([], 0)) ∧
    (l ≠ [] → |((riskDistribution l).1.map DistEntry.percentage).sum - 100| ≤ 1) := by
  by_cases hl : l.length = 0
  · have hnil : l = [] := List.length_eq_zero.mp hl
    subst hnil
    exact ⟨by simp [riskDistribution], by simp [riskDistribution],
      fun _ => by simp [riskDistribution], fun h => absurd rfl h⟩
  · have hn : (l.length : ℚ) ≠ 0 := by exact_mod_cast hl
    refine ⟨?_, ?_, ?_, ?_⟩
    · simp only [riskDistribution, if_neg hl, List.map_cons, List.map_nil,
        List.sum_cons, List.sum_nil]
      have hp := levelCount_partition l
      omega
    · simp only [riskDistribution, if_neg hl]
    · intro h
      exact absurd (by simp [h]) hl
    · intro _
      simp only [riskDistribution, if_neg hl, List.map_cons, List.map_nil,
        List.sum_cons, List.sum_nil]
      have hsum : ((levelCount l .LOW : ℚ) * 100) / (l.length : ℚ) +
          ((levelCount l .MEDIUM : ℚ) * 100) / (l.length : ℚ) +
          ((levelCount l .HIGH : ℚ) * 100) / (l.length : ℚ) = 100 := by
        rw [div_add_div_same, div_add_div_same, div_eq_iff hn]
        have hp := levelCount_partition l
        have : (levelCount l .LOW * 100 + levelCount l .MEDIUM * 100 +
            levelCount l .HIGH * 100 : ℕ) = 100 * l.length := by omega
        exact_mod_cast this
      have hround : ∀ lv : RiskLevel,
          |((levelPercentage l lv : ℚ)) -
            ((levelCount l lv : ℚ) * 100) / (l.length : ℚ)| ≤ 1 / 2 := by
        intro lv
        rw [abs_sub_comm]
        exact abs_sub_round _
      have hL := hround .LOW
      have hM := hround .MEDIUM
      have hH := hround .HIGH
      have hb : |((levelPercentage l .LOW + levelPercentage l .MEDIUM +
          levelPercentage l .HIGH : ℤ) : ℚ) - 100| ≤ 3 / 2 := by
        have hdecomp : ((levelPercentage l .LOW + levelPercentage l .MEDIUM +
            levelPercentage l .HIGH : ℤ) : ℚ) - 100 =
            (((levelPercentage l .LOW : ℚ)) -
              ((levelCount l .LOW : ℚ) * 100) / (l.length : ℚ)) +
            (((levelPercentage l .MEDIUM : ℚ)) -
              ((levelCount l .MEDIUM : ℚ) * 100) / (l.length : ℚ)) +
            (((levelPercentage l .HIGH : ℚ)) -
              ((levelCount l .HIGH : ℚ) * 100) / (l.length : ℚ)) := by
          push_cast
          linear_combination hsum
        rw [hdecomp]
        have habs := abs_add_three
          (((levelPercentage l .LOW : ℚ)) -
            ((levelCount l .LOW : ℚ) * 100) / (l.length : ℚ))
          (((levelPercentage l .MEDIUM : ℚ)) -
            ((levelCount l .MEDIUM : ℚ) * 100) / (l.length : ℚ))
          (((levelPercentage l .HIGH : ℚ)) -
            ((levelCount l .HIGH : ℚ) * 100) / (l.length : ℚ))
        linarith
      have hlt : |levelPercentage l .LOW + levelPercentage l .MEDIUM +
          levelPercentage l .HIGH - 100| < 2 := by
        have hcast : ((|levelPercentage l .LOW + levelPercentage l .MEDIUM +
            levelPercentage l .HIGH - 100| : ℤ) : ℚ) =
            |((levelPercentage l .LOW + levelPercentage l .MEDIUM +
              levelPercentage l .HIGH : ℤ) : ℚ) - 100| := by
          push_cast
          ring_nf
        have : ((|levelPercentage l .LOW + levelPercentage l .MEDIUM +
            levelPercentage l .HIGH - 100| : ℤ) : ℚ) < 2 := by
          rw [hcast]
          exact lt_of_le_of_lt hb (by norm_num)
        exact_mod_cast this
      have he : levelPercentage l .LOW + (levelPercentage l .MEDIUM +
          (levelPercentage l .HIGH + 0)) =
          levelPercentage l .LOW + levelPercentage l .MEDIUM +
            levelPercentage l .HIGH := by ring
      rw [he]
      omega

/-- Witness for C5: one assessment per level gives counts 1+1+1 = total 3
and percentages 33+33+33 = 99, within ±1 of 100. -/
theorem c5_distribution_sums_witness :
    ((riskDistribution
      [⟨1, 1, 10, .LOW, none, "rule-v1", 1⟩,
       ⟨2, 1, 40, .MEDIUM, none, "rule-v1", 2⟩,
       ⟨3, 1, 70, .HIGH, none, "rule-v1", 3⟩]).1.map DistEntry.count).sum =
      (riskDistribution
      [⟨1, 1, 10, .LOW, none, "rule-v1", 1⟩,
       ⟨2, 1, 40, .MEDIUM, none, "rule-v1", 2⟩,
       ⟨3, 1, 70, .HIGH, none, "rule-v1", 3⟩]).2 ∧
    |((riskDistribution
      [⟨1, 1, 10, .LOW, none, "rule-v1", 1⟩,
       ⟨2, 1, 40, .MEDIUM, none, "rule-v1", 2⟩,
       ⟨3, 1, 70, .HIGH, none, "rule-v1", 3⟩]).1.map DistEntry.percentage).sum - 100| ≤ 1 := by
  have h := c5_distribution_sums
    [⟨1, 1, 10, .LOW, none, "rule-v1", 1⟩,
     ⟨2, 1, 40, .MEDIUM, none, "rule-v1", 2⟩,
     ⟨3, 1, 70, .HIGH, none, "rule-v1", 3⟩]
  exact ⟨h.1, h.2.2.2 (by simp)⟩

/-- A row of the commits-with-risk working set (`CommitWithRisk` in
`frontend/lib/api.ts`, restricted to the fields the listing touches). -/
structure ListedCommit : Type where
  id : ℕ
  sha : String
  message : String
  lines_added : ℕ
  files_changed : ℕ
  created_at : ℕ
  risk_score : ℕ
  risk_level : RiskLevel
deriving DecidableEq, Repr

/-- The sort fields of §4.4 (`SortField` in the dashboard page). -/
inductive SortField : Type
  | created_at : SortField
  | risk_score : SortField
  | files_changed : SortField
  | lines_added : SortField
deriving DecidableEq, Repr

/-- Sort direction (`SortOrder` in the dashboard page). -/
inductive SortDir : Type
  | asc : SortDir
  | desc : SortDir
deriving DecidableEq, Repr

/-- The numeric key a sort field reads from a row. -/
def sortKey : SortField → ListedCommit → ℕ
  | .created_at, c => c.created_at
  | .risk_score, c => c.risk_score
  | .files_changed, c => c.files_changed
  | .lines_added, c => c.lines_added

/-- Modelled from the spec: the listing order of §4.4 — the chosen field in
the chosen direction, ties broken by commit identifier ascending. -/
def sortRel (f : SortField) (d : SortDir) (a b : ListedCommit) : Prop :=
  (match d with
   | .asc => sortKey f a < sortKey f b
   | .desc => sortKey f b < sortKey f a) ∨
  (sortKey f a = sortKey f b ∧ a.id ≤ b.id)

instance (f : SortField) (d : SortDir) : DecidableRel (sortRel f d) := by
  intro a b
  unfold sortRel
  cases d <;> exact instDecidableOr

/-- Modelled from the spec: the free-text search of §4.4, a case-insensitive
substring match against commit message and sha. -/
def matchesSearch (q : Option String) (c : ListedCommit) : Bool :=
  match q with
  | none => true
  | some qs => containsCI qs c.message || containsCI qs c.sha

/-- Modelled from the spec: the optional risk-level filter of §4.4. -/
def matchesLevel (rf : Option RiskLevel) (c : ListedCommit) : Bool :=
  match rf with
  | none => true
  | some lv => c.risk_level == lv

/-- The combined row filter of the listing. -/
def commitsFilter (rf : Option RiskLevel) (q : Option String) (c : ListedCommit) : Bool :=
  matchesLevel rf c && matchesSearch q c

/-- Modelled from the spec: the filtered/sorted/paginated listing of §4.4
(`GET /dashboard/commits-with-risk`) — filter, sort with the id tiebreak,
then skip/limit; the reported total reflects the filter, not the page. -/
def listCommitsWithRisk (working : List ListedCommit) (rf : Option RiskLevel)
    (q : Option String) (f : SortField) (d : SortDir) (skip limit : ℕ) :
    List ListedCommit × ℕ :=
  ((((working.filter (commitsFilter rf q)).insertionSort (sortRel f d)).drop skip).take limit,
   (working.filter (commitsFilter rf q)).length)

/-- `RiskCommitsTable` skip arithmetic in
`frontend/app/(dashboard)/dashboard/page.tsx`: `skip: page * limit`. -/
def clientSkip (page limit : ℕ) : ℕ :=
  page * limit

/-- `RiskCommitsTable` page count: `Math.ceil(data.total / limit)`. -/
def clientTotalPages (total limit : ℕ) : ℕ :=
  (total + limit - 1) / limit

/-- `RiskCommitsTable` Prev button guard: `disabled={page <= 0}`. -/
def prevDisabled (page : ℕ) : Bool :=
  decide (page ≤ 0)

/-- `RiskCommitsTable` Next button guard:
`disabled={page + 1 >= totalPages}`. -/
def nextDisabled (page totalPages : ℕ) : Bool :=
  decide (page + 1 ≥ totalPages)

/-- `sortRel` is total. -/
theorem sortRel_total (f : SortField) (d : SortDir) (a b : ListedCommit) :
    sortRel f d a b ∨ sortRel f d b a := by
  unfold sortRel
  cases d <;> omega

/-- `sortRel` is transitive. -/
theorem sortRel_trans (f : SortField) (d : SortDir) (a b c : ListedCommit)
    (h₁ : sortRel f d a b) (h₂ : sortRel f d b c) : sortRel f d a c := by
  unfold sortRel at *
  cases d <;> omega

/-- `Math.ceil(total / limit)` bounds: `totalPages * limit` covers the total
and overshoots by less than one page. -/
theorem clientTotalPages_spec (total L : ℕ) (hL : 0 < L) :
    total ≤ clientTotalPages total L * L ∧ clientTotalPages total L * L < total + L := by
  unfold clientTotalPages
  obtain ⟨P, hP⟩ : ∃ P, P = L * ((total + L - 1) / L) := ⟨_, rfl⟩
  have hdm := Nat.div_add_mod (total + L - 1) L
  have hmlt := Nat.mod_lt (total + L - 1) hL
  rw [Nat.mul_comm]
  rw [← hP] at hdm ⊢
  omega

/-- Summing the page lengths of all windows `[p*L, p*L + L)` for `p < n`
recovers the whole list as soon as `n * L` covers its length. -/
theorem pages_length_sum {α : Type} (L : ℕ) :
    ∀ (n : ℕ) (l : List α), l.length ≤ n * L →
      (∑ p ∈ Finset.range n, ((l.drop (p * L)).take L).length) = l.length := by
  intro n
  induction n with
  | zero =>
    intro l h
    simp only [Finset.range_zero, Finset.sum_empty]
    omega
  | succ n ih =>
    intro l h
    rw [Finset.sum_range_succ']
    have hstep : ∀ p : ℕ, ((l.drop ((p + 1) * L)).take L).length =
        (((l.drop L).drop (p * L)).take L).length := by
      intro p
      have harg : (p + 1) * L = L + p * L := by
        rw [Nat.succ_mul, Nat.add_comm]
      rw [List.drop_drop, harg]
    rw [Finset.sum_congr rfl (fun p _ => hstep p)]
    have hlen : (l.drop L).length ≤ n * L := by
      rw [List.length_drop]
      have hsm : (n + 1) * L = n * L + L := by ring
      omega
    rw [ih (l.drop L) hlen]
    simp only [Nat.zero_mul, List.drop_zero, List.length_take, List.length_drop]
    omega

/-- On a duplicate-free list, no element appears in two different pages. -/
theorem pages_disjoint {α : Type} (L : ℕ) (hL : 0 < L) (l : List α) (hnd : l.Nodup)
    (p₁ p₂ : ℕ) (x : α) (h₁ : x ∈ (l.drop (p₁ * L)).take L)
    (h₂ : x ∈ (l.drop (p₂ * L)).take L) : p₁ = p₂ := by
  obtain ⟨i₁, hi₁, e₁⟩ := List.mem_iff_getElem.mp h₁
  obtain ⟨i₂, hi₂, e₂⟩ := List.mem_iff_getElem.mp h₂
  have hb₁ : i₁ < L ∧ p₁ * L + i₁ < l.length := by
    simp only [List.length_take, List.length_drop] at hi₁
    omega
  have hb₂ : i₂ < L ∧ p₂ * L + i₂ < l.length := by
    simp only [List.length_take, List.length_drop] at hi₂
    omega
  simp only [List.getElem_take, List.getElem_drop] at e₁ e₂
  have hij : p₁ * L + i₁ = p₂ * L + i₂ :=
    (hnd.getElem_inj_iff.mp (e₁.trans e₂.symm))
  have d₁ : (L * p₁ + i₁) / L = p₁ + i₁ / L := Nat.mul_add_div hL p₁ i₁
  have d₂ : (L * p₂ + i₂) / L = p₂ + i₂ / L := Nat.mul_add_div hL p₂ i₂
  have z₁ : i₁ / L = 0 := Nat.div_eq_of_lt hb₁.1
  have z₂ : i₂ / L = 0 := Nat.div_eq_of_lt hb₂.1
  rw [z₁, Nat.add_zero] at d₁
  rw [z₂, Nat.add_zero] at d₂
  rw [Nat.mul_comm p₁ L, Nat.mul_comm p₂ L] at hij
  rw [← d₁, ← d₂, hij]

/-- Two sorted permutations of each other are equal, provided the order is
antisymmetric on the elements involved. -/
theorem sorted_perm_unique {α : Type} {r : α → α → Prop} :
    ∀ (l₁ l₂ : List α), l₁.Perm l₂ → List.Sorted r l₁ → List.Sorted r l₂ →
      (∀ a ∈ l₁, ∀ b ∈ l₁, r a b → r b a → a = b) → l₁ = l₂ := by
  intro l₁
  induction l₁ with
  | nil =>
    intro l₂ hp _ _ _
    exact hp.nil_eq
  | cons a t ih =>
    intro l₂ hp hs₁ hs₂ anti
    rcases l₂ with _ | ⟨b, t₂⟩
    · exact absurd hp.symm.nil_eq (by simp)
    · have hab : a = b := by
        rcases List.mem_cons.mp (hp.symm.subset (List.mem_cons_self b t₂)) with hb | hb
        · exact hb.symm
        · rcases List.mem_cons.mp (hp.subset (List.mem_cons_self a t)) with ha | ha
          · exact ha
          · have rab : r a b := (List.sorted_cons.mp hs₁).1 b hb
            have rba : r b a := (List.sorted_cons.mp hs₂).1 a ha
            exact anti a (List.mem_cons_self a t) b (List.mem_cons_of_mem a hb) rab rba
      subst hab
      have hp' : t.Perm t₂ := (List.perm_cons a).mp hp
      have ht : t = t₂ := ih t₂ hp' (List.sorted_cons.mp hs₁).2 (List.sorted_cons.mp hs₂).2
        (fun x hx y hy => anti x (List.mem_cons_of_mem a hx) y (List.mem_cons_of_mem a hy))
      rw [ht]

/-- C6: for a fixed filter and sort the listing partitions the filtered set —
the reported total is the filtered count for every page window, the client's
windows `skip = page * limit` summed over `⌈total / limit⌉` pages recover
exactly the total, no row lands on two different pages, sorting with the
id-ascending tiebreak makes the listing deterministic across permutations of
the working set, and the navigation guards keep the page inside
`[0, totalPages)`. -/
theorem c6_listing_partitions (working : List ListedCommit) (rf : Option RiskLevel)
    (q : Option String) (f : SortField) (d : SortDir) (L : ℕ) (hL : 0 < L) :
    (∀ skip limit, (listCommitsWithRisk working rf q f d skip limit).2 =
      (working.filter (commitsFilter rf q)).length) ∧
    (∀ p, clientSkip p L = p * L) ∧
    ((∑ p ∈ Finset.range
        (clientTotalPages (listCommitsWithRisk working rf q f d 0 L).2 L),
        (listCommitsWithRisk working rf q f d (clientSkip p L) L).1.length) =
      (listCommitsWithRisk working rf q f d 0 L).2) ∧
    ((working.map ListedCommit.id).Nodup →
      ∀ p₁ p₂ x, x ∈ (listCommitsWithRisk working rf q f d (clientSkip p₁ L) L).1 →
        x ∈ (listCommitsWithRisk working rf q f d (clientSkip p₂ L) L).1 → p₁ = p₂) ∧
    ((working.map ListedCommit.id).Nodup → ∀ working' : List ListedCommit,
      working.Perm working' → ∀ skip limit,
        listCommitsWithRisk working rf q f d skip limit =
          listCommitsWithRisk working' rf q f d skip limit) ∧
    (∀ p, prevDisabled p = false → 0 < p) ∧
    (∀ p total, nextDisabled p (clientTotalPages total L) = false →
      p + 1 < clientTotalPages total L) ∧
    (∀ total, total ≤ clientTotalPages total L * L ∧
      clientTotalPages total L * L < total + L) := by
  haveI : IsTotal ListedCommit (sortRel f d) := ⟨sortRel_total f d⟩
  haveI : IsTrans ListedCommit (sortRel f d) := ⟨fun a b c => sortRel_trans f d a b c⟩
  have hsortperm :
      ((working.filter (commitsFilter rf q)).insertionSort (sortRel f d)).Perm
        (working.filter (commitsFilter rf q)) := List.perm_insertionSort _ _
  have hslen : ((working.filter (commitsFilter rf q)).insertionSort (sortRel f d)).length =
      (working.filter (commitsFilter rf q)).length := hsortperm.length_eq
  refine ⟨fun skip limit => rfl, fun p => rfl, ?_, ?_, ?_, ?_, ?_,
    fun total => clientTotalPages_spec total L hL⟩
  · show (∑ p ∈ Finset.range
        (clientTotalPages (working.filter (commitsFilter rf q)).length L),
        ((((working.filter (commitsFilter rf q)).insertionSort
          (sortRel f d)).drop (p * L)).take L).length) =
      (working.filter (commitsFilter rf q)).length
    have hcover : ((working.filter (commitsFilter rf q)).insertionSort
        (sortRel f d)).length ≤
        clientTotalPages (working.filter (commitsFilter rf q)).length L * L := by
      rw [hslen]
      exact (clientTotalPages_spec _ L hL).1
    exact (pages_length_sum L _ _ hcover).trans hslen
  · intro hids p₁ p₂ x h₁ h₂
    have hnd : ((working.filter (commitsFilter rf q)).insertionSort (sortRel f d)).Nodup := by
      have h1 : working.Nodup := hids.of_map _
      exact (hsortperm.nodup_iff).mpr (h1.filter _)
    exact pages_disjoint L hL _ hnd p₁ p₂ x h₁ h₂
  · intro hids working' hperm skip limit
    have hfp : (working.filter (commitsFilter rf q)).Perm
        (working'.filter (commitsFilter rf q)) := hperm.filter _
    have hs₁ : List.Sorted (sortRel f d)
        ((working.filter (commitsFilter rf q)).insertionSort (sortRel f d)) :=
      List.sorted_insertionSort _ _
    have hs₂ : List.Sorted (sortRel f d)
        ((working'.filter (commitsFilter rf q)).insertionSort (sortRel f d)) :=
      List.sorted_insertionSort _ _
    have hp2 : ((working.filter (commitsFilter rf q)).insertionSort (sortRel f d)).Perm
        ((working'.filter (commitsFilter rf q)).insertionSort (sortRel f d)) :=
      hsortperm.trans (hfp.trans (List.perm_insertionSort _ _).symm)
    have anti : ∀ a ∈ (working.filter (commitsFilter rf q)).insertionSort (sortRel f d),
        ∀ b ∈ (working.filter (commitsFilter rf q)).insertionSort (sortRel f d),
        sortRel f d a b → sortRel f d b a → a = b := by
      intro a ha b hb hab hba
      have haw : a ∈ working :=
        (List.mem_filter.mp ((List.mem_insertionSort (sortRel f d)).mp ha)).1
      have hbw : b ∈ working :=
        (List.mem_filter.mp ((List.mem_insertionSort (sortRel f d)).mp hb)).1
      have hid : a.id = b.id := by
        unfold sortRel at hab hba
        cases d <;> omega
      exact List.inj_on_of_nodup_map hids haw hbw hid
    have heq := sorted_perm_unique _ _ hp2 hs₁ hs₂ anti
    unfold listCommitsWithRisk
    rw [heq, hfp.length_eq]
  · intro p hp
    simp [prevDisabled] at hp
    omega
  · intro p total hp
    simp [nextDisabled] at hp
    omega

/-- A three-row working set used to instantiate the listing theorems. -/
def sampleCommits : List ListedCommit :=
  [⟨1, "aaa111", "fix: auth bypass in login", 10, 2, 100, 70, .HIGH⟩,
   ⟨2, "bbb222", "docs: typo", 3, 1, 90, 5, .LOW⟩,
   ⟨3, "ccc333", "feat: new chart", 50, 4, 80, 20, .LOW⟩]

/-- Witness for C6: over the three-row sample at page size 2, the two pages'
lengths sum to the reported total 3. -/
theorem c6_listing_partitions_witness :
    (∑ p ∈ Finset.range
        (clientTotalPages (listCommitsWithRisk sampleCommits none none
          .created_at .asc 0 2).2 2),
        (listCommitsWithRisk sampleCommits none none .created_at .asc
          (clientSkip p 2) 2).1.length) =
      (listCommitsWithRisk sampleCommits none none .created_at .asc 0 2).2 ∧
    (listCommitsWithRisk sampleCommits none none .created_at .asc 0 2).2 = 3 := by
  have h := c6_listing_partitions sampleCommits none none .created_at .asc 2 (by decide)
  exact ⟨h.2.2.1, by decide⟩

/-- A duplicate-free list whose only matching element is `c` filters to the
singleton `[c]`. -/
theorem filter_eq_singleton {α : Type} (p : α → Bool) :
    ∀ (l : List α) (c : α), l.Nodup → c ∈ l → p c = true →
      (∀ x ∈ l, p x = true → x = c) → l.filter p = [c] := by
  intro l
  induction l with
  | nil => intro c _ hc; cases hc
  | cons a t ih =>
    intro c hnd hc hpc huniq
    rcases List.mem_cons.mp hc with rfl | hct
    · have hnotin : c ∉ t := (List.nodup_cons.mp hnd).1
      have ht : t.filter p = [] := List.filter_eq_nil_iff.mpr
        (fun x hx hpx => hnotin (huniq x (List.mem_cons_of_mem c hx) hpx ▸ hx))
      simp [List.filter_cons, hpc, ht]
    · have hne : a ≠ c := by
        rintro rfl
        exact (List.nodup_cons.mp hnd).1 hct
      have hpa : ¬ p a = true := fun hpa => hne (huniq a (List.mem_cons_self a t) hpa)
      rw [List.filter_cons, if_neg hpa]
      exact ih c (List.nodup_cons.mp hnd).2 hct hpc
        (fun x hx hpx => huniq x (List.mem_cons_of_mem a hx) hpx)

/-- C8: searching "auth" over a duplicate-free working set whose only
case-insensitive match (message or sha) is the commit `c` returns exactly
`[c]` with total 1, regardless of the sort field and direction chosen. -/
theorem c8_search_single_match (working : List ListedCommit) (c : ListedCommit)
    (f : SortField) (d : SortDir) (L : ℕ) (hL : 0 < L) (hnd : working.Nodup)
    (hc : c ∈ working) (hmatch : matchesSearch (some "auth") c = true)
    (huniq : ∀ x ∈ working, matchesSearch (some "auth") x = true → x = c) :
    (listCommitsWithRisk working none (some "auth") f d 0 L).1 = [c] ∧
    (listCommitsWithRisk working none (some "auth") f d 0 L).2 = 1 := by
  have hpt : ∀ x ∈ working, commitsFilter none (some "auth") x =
      matchesSearch (some "auth") x := by
    intro x _
    simp [commitsFilter, matchesLevel]
  have hfil : working.filter (commitsFilter none (some "auth")) = [c] := by
    rw [List.filter_congr hpt]
    exact filter_eq_singleton _ working c hnd hc hmatch huniq
  constructor
  · show ((((working.filter (commitsFilter none (some "auth"))).insertionSort
      (sortRel f d)).drop 0).take L) = [c]
    rw [hfil]
    have hone : ([c].insertionSort (sortRel f d)) = [c] := rfl
    rw [hone, List.drop_zero]
    cases L with
    | zero => omega
    | succ n => simp
  · show (working.filter (commitsFilter none (some "auth"))).length = 1
    rw [hfil]
    rfl

/-- Witness for C8: in the three-row sample only the first commit matches
"auth"; the listing returns exactly it, here under risk_score descending. -/
theorem c8_search_single_match_witness :
    (listCommitsWithRisk sampleCommits none (some "auth") .risk_score .desc 0 25).1 =
      [⟨1, "aaa111", "fix: auth bypass in login", 10, 2, 100, 70, .HIGH⟩] ∧
    (listCommitsWithRisk sampleCommits none (some "auth") .risk_score .desc 0 25).2 = 1 := by
  exact c8_search_single_match sampleCommits
    ⟨1, "aaa111", "fix: auth bypass in login", 10, 2, 100, 70, .HIGH⟩
    .risk_score .desc 25 (by decide) (by decide) (by decide) (by decide) (by decide)
